import Mathlib

/-!
Verification of the PipMag observation-dashboard core: the data-normalization,
filtering and media-derivation pipeline shared by `home.py` and the
`pages/0*_Data_Query.py` views.

Python cell values are shallowly embedded as `PyVal`; Python string methods
(`strip`, `upper`, `lower`, `capitalize`, `split`, `join`, `in`, `startswith`,
`endswith`) are modelled by executable character-list functions.  The standard
library call `ast.literal_eval` is kept abstract: the coercion function takes
the parser as a parameter `ev : String → Option PyVal`, with `none` standing
for the exception path.
-/

/-- Whitespace recognised by Python `str.strip` (space, tab, newline,
carriage return, vertical tab, form feed). -/
def isPySpace (c : Char) : Bool :=
  c = ' ' || c = '\t' || c = '\n' || c = '\r' || c = Char.ofNat 11 || c = Char.ofNat 12

/-- Drop leading and trailing Python whitespace from a character list. -/
def trimChars (l : List Char) : List Char :=
  ((l.dropWhile isPySpace).reverse.dropWhile isPySpace).reverse

/-- Model of Python `str.strip()`. -/
def pyStrip (s : String) : String :=
  String.mk (trimChars s.toList)

/-- Model of Python `str.upper()` (ASCII case mapping). -/
def pyUpper (s : String) : String :=
  String.mk (s.toList.map Char.toUpper)

/-- Model of Python `str.lower()` (ASCII case mapping). -/
def pyLower (s : String) : String :=
  String.mk (s.toList.map Char.toLower)

/-- Model of Python `str.capitalize()`: first character uppercased, the rest
lowercased. -/
def pyCapitalize (s : String) : String :=
  match s.toList with
  | [] => ""
  | c :: cs => String.mk (Char.toUpper c :: cs.map Char.toLower)

/-- Model of Python `c in s` for a single character. -/
def containsChar (s : String) (c : Char) : Bool :=
  s.toList.contains c

/-- Split a character list at a separator character; like Python `str.split`,
the empty list yields one empty piece. -/
def splitOnChar (sep : Char) : List Char → List (List Char)
  | [] => [[]]
  | c :: cs =>
    let rest := splitOnChar sep cs
    if c = sep then [] :: rest
    else
      match rest with
      | [] => [[c]]
      | p :: ps => (c :: p) :: ps

/-- Model of Python `s.split(sep)` for a one-character separator. -/
def pySplit (s : String) (sep : Char) : List String :=
  (splitOnChar sep s.toList).map String.mk

/-- Character-list prefix test. -/
def isPrefixOfCh : List Char → List Char → Bool
  | [], _ => true
  | _ :: _, [] => false
  | a :: as, b :: bs => a = b && isPrefixOfCh as bs

/-- Character-list contiguous-substring test (needle, then haystack). -/
def isSubCh (n : List Char) : List Char → Bool
  | [] => n.isEmpty
  | b :: bs => isPrefixOfCh n (b :: bs) || isSubCh n bs

/-- Model of Python `needle in hay` for strings. -/
def containsSub (hay needle : String) : Bool :=
  isSubCh needle.toList hay.toList

/-- Model of Python `s.startswith(pre)`. -/
def strStartsWith (s pre : String) : Bool :=
  isPrefixOfCh pre.toList s.toList

/-- Model of Python `s.endswith(suf)`. -/
def strEndsWith (s suf : String) : Bool :=
  isPrefixOfCh suf.toList.reverse s.toList.reverse

/-- Shallow embedding of the Python cell values flowing through the loader:
strings, integers, the float-NaN sentinel, `None`, and the structured
values `ast.literal_eval` can produce (lists, tuples, dicts). -/
inductive PyVal where
  | str (s : String)
  | int (n : Int)
  | nan
  | pynone
  | list (elems : List PyVal)
  | tuple (elems : List PyVal)
  | dict (entries : List (PyVal × PyVal))

/-- Model of `pd.isna` on a scalar cell: true exactly for NaN and `None`. -/
def PyVal.isNa : PyVal → Bool
  | .nan => true
  | .pynone => true
  | _ => false

mutual

/-- Model of Python `repr` for embedded values (quote style and escaping are
irrelevant to every claim; only scalar stringification is ever inspected). -/
def pyRepr : PyVal → String
  | .str s => "\x27" ++ s ++ "\x27"
  | .int n => toString n
  | .nan => "nan"
  | .pynone => "None"
  | .list l => "[" ++ pyReprElems l ++ "]"
  | .tuple l => "(" ++ pyReprElems l ++ ")"
  | .dict l => "\x7b" ++ pyReprEntries l ++ "\x7d"

/-- Comma-separated `repr` of a list of embedded values. -/
def pyReprElems : List PyVal → String
  | [] => ""
  | [v] => pyRepr v
  | v :: vs => pyRepr v ++ ", " ++ pyReprElems vs

/-- Comma-separated `repr` of dict entries. -/
def pyReprEntries : List (PyVal × PyVal) → String
  | [] => ""
  | [(k, v)] => pyRepr k ++ ": " ++ pyRepr v
  | (k, v) :: es => pyRepr k ++ ": " ++ pyRepr v ++ ", " ++ pyReprEntries es

end

/-- Model of Python `str(v)`: identity on strings, `repr`-like otherwise
(`str(float("nan")) = "nan"`, `str(None) = "None"`). -/
def pyStr : PyVal → String
  | .str s => s
  | v => pyRepr v

/-- The bracket test of `to_list` in `home.py` / `pages/01_Home.py`:
the stripped string starts and ends with `[`/`]`, `(`/`)` or braces. -/
def bracketDelimited (s : String) : Bool :=
  (strStartsWith s "[" && strEndsWith s "]") ||
  (strStartsWith s "(" && strEndsWith s ")") ||
  (strStartsWith s "\x7b" && strEndsWith s "\x7d")

/-- The list comprehension `[x.strip() for x in s.split(sep) if x.strip()]`
from `to_list`: the condition is evaluated on each raw piece, the output is
the stripped piece. -/
def splitPieces (s : String) (sep : Char) : List PyVal :=
  ((pySplit s sep).filter (fun x => pyStrip x ≠ "")).map (fun x => PyVal.str (pyStrip x))

/-- The delimiter-splitting fallback of `to_list` (`home.py` lines 69-76),
applied to the already-stripped string. -/
def delimFallback (s : String) : List PyVal :=
  if containsChar s ';' then splitPieces s ';'
  else if containsChar s ',' then splitPieces s ','
  else if s ≠ "" then [PyVal.str s]
  else []

/-- `to_list` from `home.py` lines 49-76 (identical in `pages/01_Home.py`):
lists pass through, NA becomes `[]`, strings are stripped, bracket-delimited
strings go through `ast.literal_eval` (the parameter `ev`; `none` is the
exception path), and everything else falls back to delimiter splitting. -/
def to_list (ev : String → Option PyVal) (val : PyVal) : List PyVal :=
  match val with
  | PyVal.list l => l
  | v =>
    if v.isNa then []
    else
      match v with
      | PyVal.str raw =>
        let s := pyStrip raw
        if bracketDelimited s then
          match ev s with
          | some (PyVal.list l) => l
          | some (PyVal.dict entries) => entries.map Prod.snd
          | some p => [p]
          | none => delimFallback s
        else delimFallback s
      | _ => []

/-- Delimiter splitting as worded by the specification: split on `;` whenever
a semicolon occurs, otherwise on `,` whenever a comma occurs, stripping each
piece and dropping empty pieces; otherwise a non-empty trimmed string becomes
a one-element list. -/
def splitBySemicolonOrComma (s : String) : List PyVal :=
  if containsChar s ';' then
    (((pySplit s ';').map pyStrip).filter (fun x => x ≠ "")).map PyVal.str
  else if containsChar s ',' then
    (((pySplit s ',').map pyStrip).filter (fun x => x ≠ "")).map PyVal.str
  else if s ≠ "" then [PyVal.str s]
  else []

/-- List coercion as worded by the specification (claim C1): a list is
returned unchanged; null/NaN yields `[]`; a string is stripped and, when
bracket/paren/brace-delimited, literal-parsed (a parsed list as-is, a parsed
dict replaced by its values, any other parse result wrapped in a singleton,
parse failure falling through to delimiter splitting); otherwise delimiter
splitting applies; any other value yields `[]`. -/
def to_list_spec (ev : String → Option PyVal) (val : PyVal) : List PyVal :=
  match val with
  | PyVal.list l => l
  | PyVal.nan => []
  | PyVal.pynone => []
  | PyVal.str raw =>
    let s := pyStrip raw
    if bracketDelimited s then
      match ev s with
      | some (PyVal.list l) => l
      | some (PyVal.dict entries) => entries.map Prod.snd
      | some p => [p]
      | none => splitBySemicolonOrComma s
    else splitBySemicolonOrComma s
  | _ => []

/-- The per-token body of `normalize_instr` (`home.py` lines 85-100): a string
token is stripped and uppercased, mapped to `CRISP`/`CHROMIS`/`IRIS` by
substring containment (in that order), otherwise kept when non-empty; a
non-string token is kept stringified when not NA, else dropped. -/
def canonInstrToken (v : PyVal) : Option String :=
  match v with
  | PyVal.str s =>
    let tag := pyUpper (pyStrip s)
    if containsSub tag "CRISP" then some "CRISP"
    else if containsSub tag "CHROMIS" then some "CHROMIS"
    else if containsSub tag "IRIS" then some "IRIS"
    else if tag ≠ "" then some tag else none
  | v => if v.isNa then none else some (pyStr v)

/-- The deduplication loop of `normalize_instr` (`home.py` lines 102-107):
walk the list keeping a `seen` set, emitting each tag the first time only. -/
def dedupSeen (seen : List String) : List String → List String
  | [] => []
  | x :: xs => if seen.contains x then dedupSeen seen xs else x :: dedupSeen (x :: seen) xs

/-- `normalize_instr` from `home.py` lines 83-108 (identical in
`pages/01_Home.py`): canonicalize every token, then deduplicate. -/
def normalize_instr (vals : List PyVal) : List String :=
  dedupSeen [] (vals.filterMap canonInstrToken)

/-- Token canonicalization as worded by the specification: trim and uppercase;
substring match against CRISP, then CHROMIS, then IRIS; else the uppercased
token verbatim if non-empty; non-string non-null tokens stringified. -/
def canonInstrTokenSpec (v : PyVal) : Option String :=
  match v with
  | PyVal.str s =>
    let tag := pyUpper (pyStrip s)
    if containsSub tag "CRISP" then some "CRISP"
    else if containsSub tag "CHROMIS" then some "CHROMIS"
    else if containsSub tag "IRIS" then some "IRIS"
    else if tag = "" then none
    else some tag
  | v => if v.isNa then none else some (pyStr v)

/-- First-occurrence deduplication as worded by the specification: keep each
element and erase its later duplicates. -/
def dedupFirstOcc : List String → List String
  | [] => []
  | x :: xs => x :: dedupFirstOcc (xs.filter (fun y => y ≠ x))
termination_by l => l.length
decreasing_by
  simp only [List.length_cons]
  exact Nat.lt_succ_of_le (List.length_filter_le _ _)

/-- The polarimetry cell coercion from `load_data` (`home.py` lines 37-40):
`astype(str).str.strip().str.capitalize().replace({"Nan": "False"})`. -/
def polCoerce (cell : PyVal) : String :=
  let c := pyCapitalize (pyStrip (pyStr cell))
  if c = "Nan" then "False" else c

/-- The polarimetry column produced by `load_data` (`home.py` lines 36-42):
cells are coerced when the column exists, otherwise the whole column is the
constant `"False"`. -/
def load_polarimetry (col : Option (List PyVal)) (nRows : Nat) : List String :=
  match col with
  | some cells => cells.map polCoerce
  | none => List.replicate nRows "False"

/-- One row of the canonical dataset, restricted to the columns the verified
filters touch.  `year` is the numeric year column (NaN as `none`), `target`,
`comments` and `timeCell` are raw cells, `instruments` is the canonical tag
list and `polarimetry` the coerced string. -/
structure Obs where
  year : Option Int
  instruments : List String
  polarimetry : String
  target : PyVal
  comments : PyVal
  timeCell : PyVal

/-- `text_has_kw` from `build_ui` in `home.py` lines 224-227: NA cells never
match, otherwise case-insensitive substring containment of the keyword. -/
def text_has_kw (kw : String) (val : PyVal) : Bool :=
  if val.isNa then false else containsSub (pyLower (pyStr val)) kw

/-- `text_has_kw` from `pages/02_Data_Query.py` lines 158-169: same as the
Home version but list-valued cells match when any non-NA element contains the
keyword. -/
def text_has_kw_elems (kw : String) (val : PyVal) : Bool :=
  if val.isNa then false
  else
    match val with
    | PyVal.list elems => elems.any (fun v => !v.isNa && containsSub (pyLower (pyStr v)) kw)
    | v => containsSub (pyLower (pyStr v)) kw

/-- The Home-view keyword mask over the target and comments columns. -/
def homeKwPred (kw : String) (r : Obs) : Bool :=
  text_has_kw kw r.target || text_has_kw kw r.comments

/-- The query-view keyword mask over the target and comments columns. -/
def queryKwPred (kw : String) (r : Obs) : Bool :=
  text_has_kw_elems kw r.target || text_has_kw_elems kw r.comments

/-- The keyword filter of `build_ui` in `home.py` lines 222-233: when the
keyword is truthy, strip and lowercase it and keep the masked rows
unconditionally. -/
def homeKeywordFilter (keyword : String) (rows : List Obs) : List Obs :=
  if keyword = "" then rows
  else rows.filter (homeKwPred (pyLower (pyStrip keyword)))

/-- The keyword filter of `pages/02_Data_Query.py` lines 155-178: as in Home,
but the mask is only applied when at least one row matches. -/
def queryKeywordFilter (keyword : String) (rows : List Obs) : List Obs :=
  if keyword = "" then rows
  else
    let pred := queryKwPred (pyLower (pyStrip keyword))
    if rows.any pred then rows.filter pred else rows

/-- A concrete observation row used to exercise the filters. -/
def obsSunspot : Obs where
  year := some 2017
  instruments := ["CRISP", "IRIS"]
  polarimetry := "False"
  target := PyVal.str "sunspot AR12645"
  comments := PyVal.nan
  timeCell := PyVal.str "10:00:00"

/-- The Home-view instrument predicate (`home.py` line 217):
`bool(sel_set.intersection(xs))`, i.e. the selected set meets the row's
instrument list. -/
def anyInstrMatch (sel xs : List String) : Bool :=
  sel.any (fun t => xs.contains t)

/-- The query-view instrument predicate (`pages/03_Data_Query.py` line 93):
`sel_set.issubset(set(xs)) if xs else False`. -/
def allInstrMatch (sel xs : List String) : Bool :=
  if xs.isEmpty then false else sel.all (fun t => xs.contains t)

/-- The Home-view instrument filter (`home.py` lines 215-217), a no-op for an
empty selection. -/
def homeInstrFilter (sel : List String) (rows : List Obs) : List Obs :=
  if sel.isEmpty then rows else rows.filter (fun r => anyInstrMatch sel r.instruments)

/-- The query-view instrument filter (`pages/03_Data_Query.py` lines 89-95),
a no-op for an empty selection. -/
def queryInstrFilter (sel : List String) (rows : List Obs) : List Obs :=
  if sel.isEmpty then rows else rows.filter (fun r => allInstrMatch sel r.instruments)

/-- The year-range filter of `build_ui` (`home.py` line 213):
`df_f["year"].between(lo, hi, inclusive="both")`; a NaN year compares false. -/
def yearRangeFilter (lo hi : Int) (rows : List Obs) : List Obs :=
  rows.filter (fun r =>
    match r.year with
    | some y => decide (lo ≤ y) && decide (y ≤ hi)
    | none => false)

/-- Accumulate the decimal value of a digit list. -/
def digitsToNat (l : List Char) : Nat :=
  l.foldl (fun acc c => acc * 10 + (c.toNat - 48)) 0

/-- Parse a non-empty all-digit character list. -/
def decDigits (l : List Char) : Option Nat :=
  if l.isEmpty then none
  else if l.all Char.isDigit then some (digitsToNat l) else none

/-- Model of `pd.to_datetime(..., format="%H:%M:%S", errors="coerce")`
followed by `.dt.time`, as seconds since midnight: exactly three
colon-separated fields of one or two digits within the `strptime` field
ranges; anything else (including `"nan"`, `"None"`, `"NaT"`) coerces to
`none` (NaT). -/
def parseHMS (s : String) : Option Nat :=
  match splitOnChar ':' s.toList with
  | [hP, mP, sP] =>
    match decDigits hP, decDigits mP, decDigits sP with
    | some h, some m, some sec =>
      if decide (hP.length ≤ 2) && decide (mP.length ≤ 2) && decide (sP.length ≤ 2)
          && decide (h ≤ 23) && decide (m ≤ 59) && decide (sec ≤ 61) then
        some (h * 3600 + m * 60 + sec)
      else none
    | _, _, _ => none
  | _ => none

/-- The time-of-day filter of the query views (`pages/02_Data_Query.py`
lines 131-133 and `pages/03_Data_Query.py` lines 108-115): the stringified
time cell is parsed with format `%H:%M:%S`, and a NaT result fails both
inclusive comparisons. -/
def timeOfDayFilter (startT endT : Nat) (rows : List Obs) : List Obs :=
  rows.filter (fun r =>
    match parseHMS (pyStr r.timeCell) with
    | some t => decide (startT ≤ t) && decide (t ≤ endT)
    | none => false)

/-- The optional criteria record of the Home-view filter pipeline
(`home.py` lines 211-233): unset fields (`none`, `[]`, `"Any"`, `""`) skip
their stage exactly as the guarding `if`s in `build_ui` do. -/
structure Criteria where
  years : Option (Int × Int)
  instr : List String
  pol : String
  keyword : String

/-- The year predicate of a criteria record; an unset range keeps every row. -/
def yearPredOf (yr : Option (Int × Int)) (r : Obs) : Bool :=
  match yr, r.year with
  | some (lo, hi), some y => decide (lo ≤ y) && decide (y ≤ hi)
  | some _, none => false
  | none, _ => true

/-- One guarded filter stage: apply the row predicate when the guard holds,
else pass the rows through. -/
def stageApp (b : Bool) (p : Obs → Bool) (rows : List Obs) : List Obs :=
  if b then rows.filter p else rows

/-- The Home-view filter pipeline (`home.py` lines 211-233): year range, then
instrument ANY-match, then polarimetry, then keyword, each stage guarded as
in `build_ui`. -/
def applyFilters (c : Criteria) (rows : List Obs) : List Obs :=
  stageApp (c.keyword != "") (homeKwPred (pyLower (pyStrip c.keyword)))
    (stageApp (c.pol != "Any") (fun r => r.polarimetry == c.pol)
      (stageApp (!c.instr.isEmpty) (fun r => anyInstrMatch c.instr r.instruments)
        (stageApp c.years.isSome (yearPredOf c.years) rows)))

/-- `criteriaLE c c2` holds when `c2` extends `c`: every predicate of `c` is
also in `c2` unchanged (so `c2` is `c` plus zero or more extra predicates). -/
def criteriaLE (c c2 : Criteria) : Prop :=
  (c.years = none ∨ c2.years = c.years) ∧
  (c.instr = [] ∨ c2.instr = c.instr) ∧
  (c.pol = "Any" ∨ c2.pol = c.pol) ∧
  (c.keyword = "" ∨ c2.keyword = c.keyword)

/-- The image suffix set of `pick_primary_image` (`pages/02_Data_Query.py`
line 196). -/
def imageSuffixes : List String := [".png", ".jpg", ".jpeg", ".gif"]

/-- The video suffix set of `pick_primary_video` (`pages/02_Data_Query.py`
line 202). -/
def videoSuffixes : List String := [".mp4", ".webm", ".mov"]

/-- Model of `u.lower().endswith(tuple_of_suffixes)`. -/
def endsWithAny (s : String) (sufs : List String) : Bool :=
  sufs.any (fun suf => strEndsWith s suf)

/-- Whether a link cell is a string whose lowercased form ends in one of the
given suffixes. -/
def linkMatches (sufs : List String) (u : PyVal) : Bool :=
  match u with
  | PyVal.str s => endsWithAny (pyLower s) sufs
  | _ => false

/-- The comprehension `[u for u in urls if isinstance(u, str) and
u.lower().endswith(sufs)]` mapped to the matched strings. -/
def matchStrOpt (sufs : List String) (u : PyVal) : Option String :=
  match u with
  | PyVal.str s => if endsWithAny (pyLower s) sufs then some s else none
  | _ => none

/-- The common shape of `pick_primary_image` / `pick_primary_video`
(`pages/02_Data_Query.py` lines 194-204): first suffix-matching string link,
`None` if there is none. -/
def pickPrimary (sufs : List String) (urls : List PyVal) : Option String :=
  (urls.filterMap (matchStrOpt sufs)).head?

/-- The common shape of the two accumulation loops in
`collect_additional_media` (`pages/02_Data_Query.py` lines 206-225): keep the
non-empty string links different from the chosen primary whose lowercased
suffix matches. -/
def collectAdditional (sufs : List String) (urls : List PyVal) (p : Option String) :
    List String :=
  urls.filterMap (fun u =>
    match u with
    | PyVal.str s =>
      if (s != "") && (some s != p) && endsWithAny (pyLower s) sufs then some s else none
    | _ => none)

/-- `pick_primary_image` from `pages/02_Data_Query.py` lines 194-198. -/
def pick_primary_image (urls : List PyVal) : Option String :=
  pickPrimary imageSuffixes urls

/-- `pick_primary_video` from `pages/02_Data_Query.py` lines 200-204. -/
def pick_primary_video (urls : List PyVal) : Option String :=
  pickPrimary videoSuffixes urls

/-- The `additional_images` column derived per row (`pages/02_Data_Query.py`
lines 206-239), using the row's own primary image. -/
def additional_images (urls : List PyVal) : List String :=
  collectAdditional imageSuffixes urls (pick_primary_image urls)

/-- The `additional_movies` column derived per row (`pages/02_Data_Query.py`
lines 206-239), using the row's own primary video. -/
def additional_movies (urls : List PyVal) : List String :=
  collectAdditional videoSuffixes urls (pick_primary_video urls)

/-- A concrete `image_links` cell. -/
def exImgLinks : List PyVal :=
  [PyVal.str "a.jpg", PyVal.str "b.mp4", PyVal.str "c.png"]

/-- Concatenate character lists with a separator character between them. -/
def intercalateCh (sep : Char) : List (List Char) → List Char
  | [] => []
  | [x] => x
  | x :: xs => x ++ sep :: intercalateCh sep xs

/-- Model of the serialization `";".join(x)` used by the export and save
paths (`pages/02_Data_Query.py` lines 469-471 and 491-495). -/
def joinSemicolon (xs : List String) : String :=
  String.mk (intercalateCh ';' (xs.map String.toList))

/-- A row with a NaN year and an unparseable time cell. -/
def obsNoYear : Obs where
  year := none
  instruments := []
  polarimetry := "False"
  target := PyVal.nan
  comments := PyVal.nan
  timeCell := PyVal.nan

theorem dedupSeen_eq_dedupFirstOcc (l : List String) :
    ∀ seen, dedupSeen seen l = dedupFirstOcc (l.filter (fun y => !seen.contains y)) := by
  induction l with
  | nil => intro seen; simp [dedupSeen, dedupFirstOcc]
  | cons x xs ih =>
    intro seen
    by_cases hx : seen.contains x
    · have hx2 : x ∈ seen := by simpa using hx
      have h1 : dedupSeen seen (x :: xs) = dedupSeen seen xs := by
        simp only [dedupSeen, if_pos hx]
      rw [h1, ih seen]
      congr 1
      simp [List.filter_cons, hx2]
    · have hx2 : x ∉ seen := by simpa using hx
      have h1 : dedupSeen seen (x :: xs) = x :: dedupSeen (x :: seen) xs := by
        simp only [dedupSeen, if_neg hx]
      have h2 : (x :: xs).filter (fun y => !seen.contains y) =
          x :: xs.filter (fun y => !seen.contains y) := by
        simp [List.filter_cons, hx2]
      rw [h1, h2, ih (x :: seen)]
      simp only [dedupFirstOcc]
      congr 1
      congr 1
      rw [List.filter_filter]
      refine List.filter_congr ?_
      intro y _
      by_cases hyx : y = x
      · subst hyx; simp
      · simp [hyx, Ne.symm hyx]

/-- C2: `normalize_instr` maps each token to its canonical tag exactly as the
specification words it and deduplicates preserving the first-occurrence order
of the canonical tags; in particular
`["crisp-nb", "CRISP", "iris"]` maps to `["CRISP", "IRIS"]`. -/
theorem normalize_instr_semantics :
    (∀ vals, normalize_instr vals = dedupFirstOcc (vals.filterMap canonInstrTokenSpec))
  ∧ normalize_instr [PyVal.str "crisp-nb", PyVal.str "CRISP", PyVal.str "iris"] =
      ["CRISP", "IRIS"] := by
  constructor
  · intro vals
    have hcanon : canonInstrToken = canonInstrTokenSpec := by
      funext v
      cases v with
      | str s =>
        simp only [canonInstrToken, canonInstrTokenSpec]
        by_cases h : pyUpper (pyStrip s) = "" <;> simp [h]
      | int n => rfl
      | nan => rfl
      | pynone => rfl
      | list l => rfl
      | tuple l => rfl
      | dict l => rfl
    unfold normalize_instr
    rw [dedupSeen_eq_dedupFirstOcc, hcanon]
    congr 1
    simp
  · decide

theorem delimFallback_eq_spec (s : String) :
    delimFallback s = splitBySemicolonOrComma s := by
  unfold delimFallback splitBySemicolonOrComma splitPieces
  have hcomm : ∀ (t : String) (sep : Char),
      ((pySplit t sep).filter (fun x => pyStrip x ≠ "")).map (fun x => PyVal.str (pyStrip x)) =
      (((pySplit t sep).map pyStrip).filter (fun x => x ≠ "")).map PyVal.str := by
    intro t sep
    induction (pySplit t sep) with
    | nil => rfl
    | cons a l ih =>
      by_cases h : pyStrip a = ""
      · simpa [List.filter_cons, h] using ih
      · simpa [List.filter_cons, h] using ih
  split
  · exact hcomm s ';'
  · split
    · exact hcomm s ','
    · rfl

/-- C1: `to_list` coerces every raw cell value exactly as the specification
describes: lists unchanged, null/NaN to `[]`, bracket-delimited strings via a
literal-structure parse (list as-is, dict values, singleton wrap, failure
falling through), delimiter splitting on `;` else `,` with stripped non-empty
pieces, a non-empty trimmed string as a singleton, and anything else `[]`. -/
theorem to_list_matches_spec (ev : String → Option PyVal) (val : PyVal) :
    to_list ev val = to_list_spec ev val := by
  cases val with
  | str raw =>
    show (if bracketDelimited (pyStrip raw) then _ else delimFallback (pyStrip raw)) = _
    unfold to_list_spec
    by_cases hb : bracketDelimited (pyStrip raw)
    · simp only [hb, if_true]
      cases ev (pyStrip raw) with
      | none => exact delimFallback_eq_spec _
      | some p => cases p <;> rfl
    · simp only [hb, if_false]
      exact delimFallback_eq_spec _
  | int n => rfl
  | nan => rfl
  | pynone => rfl
  | list l => rfl
  | tuple l => rfl
  | dict l => rfl

/-- The loaded polarimetry column is not validated against
`{"True", "False"}`: the source cell `"yes"` is loaded as `"Yes"`. -/
theorem polarimetry_leak_counterexample :
    load_polarimetry (some [PyVal.str "yes"]) 1 = ["Yes"]
  ∧ ¬ ("Yes" = "True" ∨ "Yes" = "False") := by
  exact ⟨by decide, by decide⟩

/-- C3 (amended): the loaded polarimetry value is the strip-capitalized
string form of the source cell with the exact value `"Nan"` replaced by
`"False"`; a missing column yields `"False"` for every row and a NaN cell (or
any cell capitalizing to `"Nan"`) becomes `"False"`, but any other string is
kept verbatim, so values outside {`"True"`, `"False"`} can survive loading. -/
theorem polarimetry_normalization (nRows : Nat) (s : String)
    (hnan : pyCapitalize (pyStrip s) = "Nan") :
    load_polarimetry none nRows = List.replicate nRows "False"
  ∧ polCoerce PyVal.nan = "False"
  ∧ polCoerce (PyVal.str s) = "False"
  ∧ (∀ t, pyCapitalize (pyStrip t) ≠ "Nan" →
      polCoerce (PyVal.str t) = pyCapitalize (pyStrip t)) := by
  refine ⟨rfl, by decide, ?_, ?_⟩
  · show (if pyCapitalize (pyStrip s) = "Nan" then "False" else _) = "False"
    rw [if_pos hnan]
  · intro t ht
    show (if pyCapitalize (pyStrip t) = "Nan" then "False" else _) = _
    rw [if_neg ht]
    rfl

theorem polarimetry_normalization_witness :
    polCoerce (PyVal.str " nan ") = "False" ∧ polCoerce (PyVal.str "true") = "True" := by
  refine ⟨(polarimetry_normalization 0 " nan " (by decide)).2.2.1, ?_⟩
  exact ((polarimetry_normalization 0 " nan " (by decide)).2.2.2 "true"
    (by decide)).trans (by decide)

/-- The Home view has no "keep all rows" fallback for a keyword matching
nothing: a non-empty dataset filters down to the empty set. -/
theorem keyword_fallback_counterexample :
    homeKeywordFilter "zzznotfound" [obsSunspot] = []
  ∧ homeKeywordFilter "zzznotfound" [obsSunspot] ≠ [obsSunspot]
  ∧ [obsSunspot] ≠ ([] : List Obs) := by
  have h : homeKeywordFilter "zzznotfound" [obsSunspot] = [] := rfl
  exact ⟨h, by rw [h]; simp, by simp⟩

/-- C4 (amended): for a non-empty keyword matching no row, the query view's
keyword filter (`pages/02_Data_Query.py`) is a no-op returning the full input
set, while the Home view's keyword filter returns the empty set instead. -/
theorem keyword_no_match_behavior (keyword : String) (rows : List Obs)
    (hk : keyword ≠ "")
    (hq : ∀ r ∈ rows, queryKwPred (pyLower (pyStrip keyword)) r = false)
    (hh : ∀ r ∈ rows, homeKwPred (pyLower (pyStrip keyword)) r = false) :
    queryKeywordFilter keyword rows = rows ∧ homeKeywordFilter keyword rows = [] := by
  constructor
  · unfold queryKeywordFilter
    rw [if_neg hk]
    have hany : rows.any (queryKwPred (pyLower (pyStrip keyword))) = false := by
      rw [List.any_eq_false]
      intro r hr
      simp [hq r hr]
    simp [hany]
  · unfold homeKeywordFilter
    rw [if_neg hk]
    rw [List.filter_eq_nil_iff]
    intro r hr
    simp [hh r hr]

theorem keyword_no_match_witness :
    queryKeywordFilter "zzznotfound" [obsSunspot] = [obsSunspot] :=
  (keyword_no_match_behavior "zzznotfound" [obsSunspot] (by decide)
    (by intro r hr; rw [List.mem_singleton] at hr; subst hr; rfl)
    (by intro r hr; rw [List.mem_singleton] at hr; subst hr; rfl)).1

/-- C6: with a non-empty selection, the Home view keeps a row iff its
instrument list meets the selected set (ANY-match) while the query view keeps
it iff the selected set is contained in the row's instruments (ALL-match);
an empty selection makes both filters the identity. -/
theorem instrument_filter_semantics (sel : List String) (rows : List Obs) (r : Obs)
    (hsel : sel ≠ []) :
    (r ∈ homeInstrFilter sel rows ↔ r ∈ rows ∧ ∃ t ∈ sel, t ∈ r.instruments)
  ∧ (r ∈ queryInstrFilter sel rows ↔ r ∈ rows ∧ ∀ t ∈ sel, t ∈ r.instruments)
  ∧ homeInstrFilter [] rows = rows ∧ queryInstrFilter [] rows = rows := by
  have hne : sel.isEmpty = false := by
    cases sel with
    | nil => exact absurd rfl hsel
    | cons a l => rfl
  refine ⟨?_, ?_, rfl, rfl⟩
  · unfold homeInstrFilter
    rw [hne]
    simp only [Bool.false_eq_true, if_false, List.mem_filter]
    simp [anyInstrMatch]
  · unfold queryInstrFilter
    rw [hne]
    simp only [Bool.false_eq_true, if_false, List.mem_filter]
    have hall : (allInstrMatch sel r.instruments = true) ↔
        ∀ t ∈ sel, t ∈ r.instruments := by
      unfold allInstrMatch
      cases hxs : r.instruments with
      | nil =>
        simp only [List.isEmpty_nil, if_true]
        constructor
        · intro h; exact absurd h (by simp)
        · intro h
          obtain ⟨t, ht⟩ := List.exists_mem_of_ne_nil sel hsel
          exact absurd (h t ht) (List.not_mem_nil t)
      | cons a xs =>
        simp [List.all_eq_true]
    rw [hall]

/-- Witness for `instrument_filter_semantics` at a concrete row. -/
theorem instrument_filter_witness :
    obsSunspot ∈ homeInstrFilter ["CRISP"] [obsSunspot]
  ∧ obsSunspot ∈ queryInstrFilter ["CRISP"] [obsSunspot] := by
  have h := instrument_filter_semantics ["CRISP"] [obsSunspot] obsSunspot (by decide)
  refine ⟨h.1.mpr ⟨by simp, ⟨"CRISP", by simp, by simp [obsSunspot]⟩⟩,
    h.2.1.mpr ⟨by simp, ?_⟩⟩
  intro t ht
  rw [List.mem_singleton] at ht
  subst ht
  simp [obsSunspot]

/-- C9: the year-range filter keeps exactly the rows whose year is non-null
and lies inclusively between the bounds; NaN years are excluded, a 2017 row
is kept by the range (2017, 2017) and dropped by (2018, 2020). -/
theorem year_range_semantics (lo hi : Int) (rows : List Obs) (r : Obs) :
    (r ∈ yearRangeFilter lo hi rows ↔
      r ∈ rows ∧ ∃ y, r.year = some y ∧ lo ≤ y ∧ y ≤ hi)
  ∧ (r.year = none → r ∉ yearRangeFilter lo hi rows)
  ∧ yearRangeFilter 2017 2017 [obsSunspot] = [obsSunspot]
  ∧ yearRangeFilter 2018 2020 [obsSunspot] = [] := by
  refine ⟨?_, ?_, rfl, rfl⟩
  · unfold yearRangeFilter
    rw [List.mem_filter]
    cases hy : r.year with
    | none => simp [hy]
    | some y => simp [hy]
  · intro hnone
    simp [yearRangeFilter, List.mem_filter, hnone]

/-- Witness for `year_range_semantics`: a NaN-year row is excluded. -/
theorem year_range_witness :
    obsNoYear ∉ yearRangeFilter 2000 2030 [obsNoYear] :=
  (year_range_semantics 2000 2030 [obsNoYear] obsNoYear).2.1 rfl

/-- C10: the query views' time-of-day filter keeps exactly the rows whose
stringified time cell parses with format `%H:%M:%S` to a value inside the
inclusive range; null (`"nan"`/`"None"`) and unparseable cells are excluded
for every range, including the widest one, 00:00 to 23:59. -/
theorem time_filter_semantics (startT endT : Nat) (rows : List Obs) (r : Obs) :
    (r ∈ timeOfDayFilter startT endT rows ↔
      r ∈ rows ∧ ∃ t, parseHMS (pyStr r.timeCell) = some t ∧ startT ≤ t ∧ t ≤ endT)
  ∧ (parseHMS (pyStr r.timeCell) = none →
      r ∉ timeOfDayFilter 0 (23 * 3600 + 59 * 60) rows)
  ∧ parseHMS (pyStr PyVal.nan) = none
  ∧ parseHMS (pyStr PyVal.pynone) = none := by
  refine ⟨?_, ?_, rfl, rfl⟩
  · unfold timeOfDayFilter
    rw [List.mem_filter]
    cases hp : parseHMS (pyStr r.timeCell) with
    | none => simp [hp]
    | some t => simp [hp]
  · intro hnone
    simp [timeOfDayFilter, List.mem_filter, hnone]

/-- Witness for `time_filter_semantics`: a NaN time cell is excluded even by
the widest range. -/
theorem time_filter_witness :
    obsNoYear ∉ timeOfDayFilter 0 (23 * 3600 + 59 * 60) [obsNoYear] :=
  (time_filter_semantics 0 (23 * 3600 + 59 * 60) [obsNoYear] obsNoYear).2.1 rfl

theorem stageApp_sublist {b2 b : Bool} {p2 p : Obs → Bool}
    (h : b = false ∨ (b2 = b ∧ p2 = p)) {l2 l : List Obs} (hl : List.Sublist l2 l) :
    List.Sublist (stageApp b2 p2 l2) (stageApp b p l) := by
  rcases h with hb | ⟨hb, hp⟩
  · subst hb
    show List.Sublist (stageApp b2 p2 l2) l
    unfold stageApp
    cases b2 with
    | true => exact (List.filter_sublist l2).trans hl
    | false => exact hl
  · subst hb; subst hp
    unfold stageApp
    cases b2 with
    | true => exact hl.filter p2
    | false => exact hl

/-- C7: adding predicates to the Home-view (ANY-match) filter pipeline never
increases the result size: if `c2` extends the criteria `c` by extra
predicates, filtering with `c2` yields at most as many rows. -/
theorem filter_monotone (D : List Obs) (c c2 : Criteria) (h : criteriaLE c c2) :
    (applyFilters c2 D).length ≤ (applyFilters c D).length := by
  obtain ⟨hy, hi, hp, hk⟩ := h
  have sub : List.Sublist (applyFilters c2 D) (applyFilters c D) := by
    unfold applyFilters
    apply stageApp_sublist
    · rcases hk with hk | hk
      · exact Or.inl (by rw [hk]; rfl)
      · exact Or.inr ⟨by rw [hk], by rw [hk]⟩
    apply stageApp_sublist
    · rcases hp with hp | hp
      · exact Or.inl (by rw [hp]; rfl)
      · exact Or.inr ⟨by rw [hp], by rw [hp]⟩
    apply stageApp_sublist
    · rcases hi with hi | hi
      · exact Or.inl (by rw [hi]; rfl)
      · exact Or.inr ⟨by rw [hi], by rw [hi]⟩
    apply stageApp_sublist
    · rcases hy with hy | hy
      · exact Or.inl (by rw [hy]; rfl)
      · exact Or.inr ⟨by rw [hy], by rw [hy]⟩
    exact List.Sublist.refl D
  exact sub.length_le

/-- Witness for `filter_monotone`: adding an instrument predicate to a
year-only criteria set. -/
theorem filter_monotone_witness :
    (applyFilters ⟨some (2017, 2017), ["CRISP"], "Any", ""⟩ [obsSunspot]).length ≤
    (applyFilters ⟨some (2017, 2017), [], "Any", ""⟩ [obsSunspot]).length :=
  filter_monotone [obsSunspot] ⟨some (2017, 2017), [], "Any", ""⟩
    ⟨some (2017, 2017), ["CRISP"], "Any", ""⟩
    ⟨Or.inr rfl, Or.inl rfl, Or.inl rfl, Or.inl rfl⟩

theorem pickPrimary_eq_find (sufs : List String) (urls : List PyVal) :
    (∀ s, pickPrimary sufs urls = some s ↔
      urls.find? (linkMatches sufs) = some (PyVal.str s))
  ∧ (pickPrimary sufs urls = none ↔ urls.find? (linkMatches sufs) = none) := by
  induction urls with
  | nil => exact ⟨fun s => by simp [pickPrimary], by simp [pickPrimary]⟩
  | cons u rest ih =>
    have step : ∀ v, matchStrOpt sufs v = none → linkMatches sufs v = false →
        ((∀ s, pickPrimary sufs (v :: rest) = some s ↔
            (v :: rest).find? (linkMatches sufs) = some (PyVal.str s))
        ∧ (pickPrimary sufs (v :: rest) = none ↔
            (v :: rest).find? (linkMatches sufs) = none)) := by
      intro v hmo hlm
      have e1 : pickPrimary sufs (v :: rest) = pickPrimary sufs rest := by
        simp [pickPrimary, List.filterMap_cons, hmo]
      have e2 : (v :: rest).find? (linkMatches sufs) = rest.find? (linkMatches sufs) :=
        List.find?_cons_of_neg _ (by simp [hlm])
      exact ⟨fun s => by rw [e1, e2]; exact ih.1 s, by rw [e1, e2]; exact ih.2⟩
    cases u with
    | str s0 =>
      by_cases h : endsWithAny (pyLower s0) sufs
      · have e1 : pickPrimary sufs (PyVal.str s0 :: rest) = some s0 := by
          simp [pickPrimary, List.filterMap_cons, matchStrOpt, h]
        have e2 : (PyVal.str s0 :: rest).find? (linkMatches sufs) = some (PyVal.str s0) :=
          List.find?_cons_of_pos _ (by simp [linkMatches, h])
        constructor
        · intro s
          rw [e1, e2]
          simp
        · rw [e1, e2]
          simp
      · exact step (PyVal.str s0) (by simp [matchStrOpt, h]) (by simp [linkMatches, h])
    | int n => exact step (PyVal.int n) rfl rfl
    | nan => exact step PyVal.nan rfl rfl
    | pynone => exact step PyVal.pynone rfl rfl
    | list l => exact step (PyVal.list l) rfl rfl
    | tuple l => exact step (PyVal.tuple l) rfl rfl
    | dict l => exact step (PyVal.dict l) rfl rfl

theorem mem_collectAdditional (sufs : List String) (urls : List PyVal)
    (p : Option String) (s : String) :
    s ∈ collectAdditional sufs urls p ↔
      (PyVal.str s ∈ urls ∧ s ≠ "" ∧ some s ≠ p ∧ endsWithAny (pyLower s) sufs = true) := by
  unfold collectAdditional
  rw [List.mem_filterMap]
  constructor
  · rintro ⟨u, hu, hmap⟩
    cases u with
    | str s0 =>
      dsimp only at hmap
      by_cases hc : ((s0 != "") && (some s0 != p) && endsWithAny (pyLower s0) sufs) = true
      · rw [if_pos hc] at hmap
        obtain rfl : s0 = s := Option.some.inj hmap
        simp only [Bool.and_eq_true, bne_iff_ne] at hc
        exact ⟨hu, hc.1.1, hc.1.2, hc.2⟩
      · rw [if_neg hc] at hmap
        exact absurd hmap (by simp)
    | int n => exact absurd hmap (by simp [matchStrOpt])
    | nan => exact absurd hmap (by simp)
    | pynone => exact absurd hmap (by simp)
    | list l => exact absurd hmap (by simp)
    | tuple l => exact absurd hmap (by simp)
    | dict l => exact absurd hmap (by simp)
  · rintro ⟨hu, hne, hnp, hsuf⟩
    refine ⟨PyVal.str s, hu, ?_⟩
    have hc : ((s != "") && (some s != p) && endsWithAny (pyLower s) sufs) = true := by
      simp [bne_iff_ne, hne, hnp, hsuf]
    dsimp only
    rw [if_pos hc]

theorem strEndsWith_of_empty (suf : String) (h : strEndsWith "" suf = true) :
    suf = "" := by
  unfold strEndsWith at h
  cases hsuf : suf.toList.reverse with
  | nil =>
    have hl : suf.toList = [] := by
      have := congrArg List.reverse hsuf
      simpa using this
    cases suf with
    | mk data => simpa [String.toList] using congrArg String.mk hl
  | cons c cs =>
    rw [hsuf] at h
    exact absurd h (by simp [isPrefixOfCh])

theorem mediaPartition_generic (sufs : List String) (urls : List PyVal)
    (hsufs : ∀ suf ∈ sufs, suf ≠ "") :
    (∀ s, pickPrimary sufs urls = some s →
      s ∉ collectAdditional sufs urls (pickPrimary sufs urls))
  ∧ (∀ s, (pickPrimary sufs urls = some s ∨
        s ∈ collectAdditional sufs urls (pickPrimary sufs urls)) ↔
      (endsWithAny (pyLower s) sufs = true ∧ PyVal.str s ∈ urls)) := by
  constructor
  · intro s hs hmem
    rw [mem_collectAdditional] at hmem
    exact hmem.2.2.1 hs.symm
  · intro s
    constructor
    · rintro (hs | hmem)
      · have hf := ((pickPrimary_eq_find sufs urls).1 s).mp hs
        have hmem2 := List.mem_of_find?_eq_some hf
        have hp := List.find?_some hf
        exact ⟨by simpa [linkMatches] using hp, hmem2⟩
      · rw [mem_collectAdditional] at hmem
        exact ⟨hmem.2.2.2, hmem.1⟩
    · rintro ⟨hsuf, hmem⟩
      by_cases hp : pickPrimary sufs urls = some s
      · exact Or.inl hp
      · refine Or.inr ?_
        rw [mem_collectAdditional]
        refine ⟨hmem, ?_, fun he => hp he.symm, hsuf⟩
        intro hse
        subst hse
        obtain ⟨suf, hsufmem, hends⟩ := by
          simpa [endsWithAny, List.any_eq_true] using hsuf
        exact hsufs suf hsufmem (strEndsWith_of_empty suf (by simpa [pyLower] using hends))

/-- C5: per row, the primary image is the first image-suffix-matching link of
`image_links` (null if none), it never reappears in `additional_images`, and
`{primary_image} ∪ additional_images` is exactly the set of
image-suffix-matching links; the analogous statements hold for
`primary_video` / `additional_movies` over `video_links`; links with
non-matching suffixes appear in neither column. -/
theorem media_partition (imgs vids : List PyVal) :
    (∀ s, pick_primary_image imgs = some s ↔
      imgs.find? (linkMatches imageSuffixes) = some (PyVal.str s))
  ∧ (∀ s, pick_primary_image imgs = some s → s ∉ additional_images imgs)
  ∧ (∀ s, (pick_primary_image imgs = some s ∨ s ∈ additional_images imgs) ↔
      (endsWithAny (pyLower s) imageSuffixes = true ∧ PyVal.str s ∈ imgs))
  ∧ (∀ s, pick_primary_video vids = some s ↔
      vids.find? (linkMatches videoSuffixes) = some (PyVal.str s))
  ∧ (∀ s, pick_primary_video vids = some s → s ∉ additional_movies vids)
  ∧ (∀ s, (pick_primary_video vids = some s ∨ s ∈ additional_movies vids) ↔
      (endsWithAny (pyLower s) videoSuffixes = true ∧ PyVal.str s ∈ vids)) := by
  refine ⟨(pickPrimary_eq_find imageSuffixes imgs).1,
    (mediaPartition_generic imageSuffixes imgs (by decide)).1,
    (mediaPartition_generic imageSuffixes imgs (by decide)).2,
    (pickPrimary_eq_find videoSuffixes vids).1,
    (mediaPartition_generic videoSuffixes vids (by decide)).1,
    (mediaPartition_generic videoSuffixes vids (by decide)).2⟩

/-- Witness for `media_partition` on a concrete link list. -/
theorem media_partition_witness :
    "a.jpg" ∉ additional_images exImgLinks :=
  (media_partition exImgLinks []).2.1 "a.jpg" rfl

theorem dropWhile_length_le (p : Char → Bool) (l : List Char) :
    (l.dropWhile p).length ≤ l.length :=
  (List.dropWhile_sublist p).length_le

theorem dropWhile_eq_self_of_length (p : Char → Bool) :
    ∀ l : List Char, (l.dropWhile p).length = l.length → l.dropWhile p = l := by
  intro l
  induction l with
  | nil => intro _; rfl
  | cons c t ih =>
    intro hlen
    by_cases hc : p c
    · rw [List.dropWhile_cons_of_pos hc] at hlen ⊢
      have := dropWhile_length_le p t
      simp only [List.length_cons] at hlen
      omega
    · exact List.dropWhile_cons_of_neg hc

theorem trim_eq_self_parts (l : List Char) (h : trimChars l = l) :
    l.dropWhile isPySpace = l ∧ l.reverse.dropWhile isPySpace = l.reverse := by
  have hlen := congrArg List.length h
  unfold trimChars at hlen
  rw [List.length_reverse] at hlen
  have le1 : ((l.dropWhile isPySpace).reverse.dropWhile isPySpace).length ≤
      (l.dropWhile isPySpace).length := by
    have := dropWhile_length_le isPySpace (l.dropWhile isPySpace).reverse
    simpa using this
  have le2 := dropWhile_length_le isPySpace l
  have hu : (l.dropWhile isPySpace).length = l.length := by omega
  have hu2 : l.dropWhile isPySpace = l := dropWhile_eq_self_of_length _ _ hu
  refine ⟨hu2, ?_⟩
  apply dropWhile_eq_self_of_length
  rw [hu2] at hlen
  rw [List.length_reverse]
  exact hlen

theorem trimChars_eq_self (l : List Char) (h1 : l.dropWhile isPySpace = l)
    (h2 : l.reverse.dropWhile isPySpace = l.reverse) : trimChars l = l := by
  unfold trimChars
  rw [h1, h2, List.reverse_reverse]

theorem dropWhile_head_false {p : Char → Bool} {c : Char} {t : List Char}
    (h : (c :: t).dropWhile p = c :: t) : p c = false := by
  by_cases hc : p c
  · rw [List.dropWhile_cons_of_pos hc] at h
    have h1 := dropWhile_length_le p t
    have h2 := congrArg List.length h
    simp only [List.length_cons] at h2
    omega
  · simpa using hc

theorem dropWhile_append_of_ne_nil {p : Char → Bool} {l : List Char}
    (hl : l.dropWhile p = l) (hne : l ≠ []) (t : List Char) :
    (l ++ t).dropWhile p = l ++ t := by
  cases l with
  | nil => exact absurd rfl hne
  | cons c l2 =>
    have hc : p c = false := dropWhile_head_false hl
    rw [List.cons_append, List.dropWhile_cons_of_neg (by simp [hc])]

theorem toList_strip_eq {x : String} (h : pyStrip x = x) :
    trimChars x.toList = x.toList := by
  have := congrArg String.toList h
  simpa [pyStrip] using this

theorem toList_ne_nil {x : String} (h : x ≠ "") : x.toList ≠ [] := by
  intro hnil
  apply h
  cases x with
  | mk data =>
    simp only [String.toList] at hnil
    simp [hnil]

theorem intercalateCh_ne_nil (sep : Char) (y : List Char) (r : List (List Char))
    (hy : y ≠ []) : intercalateCh sep (y :: r) ≠ [] := by
  cases r with
  | nil => simpa [intercalateCh] using hy
  | cons z r2 =>
    simp only [intercalateCh]
    intro hcontra
    rcases List.append_eq_nil.mp hcontra with ⟨h1, h2⟩
    exact hy h1

theorem intercalateCh_head (sep : Char) (a : List Char) (ls : List (List Char)) :
    ∃ t, intercalateCh sep (a :: ls) = a ++ t := by
  cases ls with
  | nil => exact ⟨[], by simp [intercalateCh]⟩
  | cons b ls2 => exact ⟨sep :: intercalateCh sep (b :: ls2), rfl⟩

theorem dropWhile_intercalate (sep : Char) (ls : List (List Char))
    (h : ∀ l ∈ ls, l.dropWhile isPySpace = l ∧ l ≠ []) :
    (intercalateCh sep ls).dropWhile isPySpace = intercalateCh sep ls := by
  cases ls with
  | nil => rfl
  | cons x ls2 =>
    obtain ⟨t, ht⟩ := intercalateCh_head sep x ls2
    rw [ht]
    exact dropWhile_append_of_ne_nil (h x (List.mem_cons_self x ls2)).1
      (h x (List.mem_cons_self x ls2)).2 t

theorem dropWhile_reverse_intercalate (sep : Char) (ls : List (List Char))
    (h : ∀ l ∈ ls, l.reverse.dropWhile isPySpace = l.reverse ∧ l ≠ []) :
    (intercalateCh sep ls).reverse.dropWhile isPySpace = (intercalateCh sep ls).reverse := by
  induction ls with
  | nil => rfl
  | cons x ls2 ih =>
    cases ls2 with
    | nil =>
      exact (h x (List.mem_cons_self x [])).1
    | cons y r =>
      have hI := ih (fun l hl => h l (List.mem_cons_of_mem x hl))
      have hIne : intercalateCh sep (y :: r) ≠ [] :=
        intercalateCh_ne_nil sep y r (h y (by simp)).2
      have hIrevne : (intercalateCh sep (y :: r)).reverse ≠ [] := by
        simpa using hIne
      show (x ++ sep :: intercalateCh sep (y :: r)).reverse.dropWhile isPySpace =
        (x ++ sep :: intercalateCh sep (y :: r)).reverse
      rw [List.reverse_append, List.reverse_cons, List.append_assoc]
      exact dropWhile_append_of_ne_nil hI hIrevne _

theorem join_strip (xs : List String)
    (h : ∀ x ∈ xs, x ≠ "" ∧ pyStrip x = x) :
    pyStrip (joinSemicolon xs) = joinSemicolon xs := by
  have hparts : ∀ l ∈ xs.map String.toList,
      (l.dropWhile isPySpace = l ∧ l ≠ []) ∧
      (l.reverse.dropWhile isPySpace = l.reverse ∧ l ≠ []) := by
    intro l hl
    rw [List.mem_map] at hl
    obtain ⟨x, hx, rfl⟩ := hl
    have htrim := toList_strip_eq (h x hx).2
    have hne := toList_ne_nil (h x hx).1
    have hp := trim_eq_self_parts x.toList htrim
    exact ⟨⟨hp.1, hne⟩, ⟨hp.2, hne⟩⟩
  show String.mk (trimChars (joinSemicolon xs).toList) = joinSemicolon xs
  have htl : (joinSemicolon xs).toList = intercalateCh ';' (xs.map String.toList) := rfl
  rw [htl]
  rw [trimChars_eq_self _
    (dropWhile_intercalate ';' _ (fun l hl => (hparts l hl).1))
    (dropWhile_reverse_intercalate ';' _ (fun l hl => (hparts l hl).2))]
  rfl

theorem splitOnChar_no_sep (sep : Char) (l : List Char) (h : sep ∉ l) :
    splitOnChar sep l = [l] := by
  induction l with
  | nil => rfl
  | cons c t ih =>
    have hcs : ¬ c = sep := fun hc => h (by rw [hc]; exact List.mem_cons_self _ _)
    have ht : sep ∉ t := fun hm => h (List.mem_cons_of_mem c hm)
    simp only [splitOnChar, if_neg hcs, ih ht]

theorem splitOnChar_append_sep (sep : Char) (a t : List Char) (h : sep ∉ a) :
    splitOnChar sep (a ++ sep :: t) = a :: splitOnChar sep t := by
  induction a with
  | nil => simp [splitOnChar]
  | cons c a2 ih =>
    have hcs : ¬ c = sep := fun hc => h (by rw [hc]; exact List.mem_cons_self _ _)
    have ha : sep ∉ a2 := fun hm => h (List.mem_cons_of_mem c hm)
    rw [List.cons_append]
    simp only [splitOnChar, if_neg hcs, ih ha]

theorem splitOnChar_intercalateCh (sep : Char) (ls : List (List Char))
    (hne : ls ≠ []) (h : ∀ l ∈ ls, sep ∉ l) :
    splitOnChar sep (intercalateCh sep ls) = ls := by
  induction ls with
  | nil => exact absurd rfl hne
  | cons x ls2 ih =>
    cases ls2 with
    | nil => exact splitOnChar_no_sep sep x (h x (by simp))
    | cons y r =>
      show splitOnChar sep (x ++ sep :: intercalateCh sep (y :: r)) = _
      rw [splitOnChar_append_sep sep x _ (h x (by simp))]
      rw [ih (by simp) (fun l hl => h l (List.mem_cons_of_mem x hl))]

theorem delimFallback_join (xs : List String)
    (hx : ∀ x ∈ xs, x ≠ "" ∧ pyStrip x = x ∧
      containsChar x ';' = false ∧ containsChar x ',' = false) :
    delimFallback (joinSemicolon xs) = xs.map PyVal.str := by
  cases xs with
  | nil => rfl
  | cons x xs2 =>
    cases xs2 with
    | nil =>
      have hxx := hx x (by simp)
      have hjoin : joinSemicolon [x] = x := by
        show String.mk (String.toList x) = x
        cases x with
        | mk data => rfl
      rw [hjoin]
      unfold delimFallback
      rw [hxx.2.2.1, hxx.2.2.2]
      simp [hxx.1]
    | cons y r =>
      have hsemi : containsChar (joinSemicolon (x :: y :: r)) ';' = true := by
        show (intercalateCh ';' (String.toList x :: String.toList y ::
          r.map String.toList)).contains ';' = true
        show (String.toList x ++ ';' :: intercalateCh ';'
          (String.toList y :: r.map String.toList)).contains ';' = true
        simp
      unfold delimFallback
      rw [hsemi]
      simp only [if_true]
      unfold splitPieces
      have hsplit : pySplit (joinSemicolon (x :: y :: r)) ';' = x :: y :: r := by
        unfold pySplit
        have htl : (joinSemicolon (x :: y :: r)).toList =
            intercalateCh ';' ((x :: y :: r).map String.toList) := rfl
        rw [htl, splitOnChar_intercalateCh ';' _ (by simp) ?hmem]
        case hmem =>
          intro l hl
          rw [List.mem_map] at hl
          obtain ⟨z, hz, rfl⟩ := hl
          intro hmem
          have := (hx z hz).2.2.1
          simp [containsChar] at this
          exact this hmem
        show ((x :: y :: r).map String.toList).map String.mk = x :: y :: r
        rw [List.map_map]
        have : (String.mk ∘ String.toList) = id := by
          funext z
          cases z with
          | mk data => rfl
        rw [this, List.map_id]
      rw [hsplit]
      have hfil : (x :: y :: r).filter (fun z => pyStrip z ≠ "") = x :: y :: r := by
        rw [List.filter_eq_self]
        intro z hz
        rw [(hx z hz).2.1]
        simpa using (hx z hz).1
      rw [hfil]
      apply List.map_congr_left
      intro z hz
      rw [(hx z hz).2.1]

/-- C8 (amended): list coercion is idempotent on lists, and joining with `;`
then re-coercing restores a list of non-empty, whitespace-trimmed strings
that contain no `;` or `,`, provided the joined string is not
bracket/paren/brace-delimited or its literal parse fails; untrimmed or
whitespace-only elements and successfully parsed bracket-delimited joins are
not restored verbatim. -/
theorem to_list_roundtrip (ev : String → Option PyVal) (l : List PyVal) (xs : List String)
    (hx : ∀ x ∈ xs, x ≠ "" ∧ pyStrip x = x ∧
      containsChar x ';' = false ∧ containsChar x ',' = false)
    (hev : bracketDelimited (joinSemicolon xs) = false ∨ ev (joinSemicolon xs) = none) :
    to_list ev (PyVal.list l) = l
  ∧ to_list ev (PyVal.str (joinSemicolon xs)) = xs.map PyVal.str := by
  refine ⟨rfl, ?_⟩
  have hstrip : pyStrip (joinSemicolon xs) = joinSemicolon xs :=
    join_strip xs (fun x hmem => ⟨(hx x hmem).1, (hx x hmem).2.1⟩)
  show (if bracketDelimited (pyStrip (joinSemicolon xs)) then _
    else delimFallback (pyStrip (joinSemicolon xs))) = _
  rw [hstrip]
  rcases hev with hbr | hevn
  · rw [hbr]
    simp only [Bool.false_eq_true, if_false]
    exact delimFallback_join xs hx
  · by_cases hbr : bracketDelimited (joinSemicolon xs)
    · rw [hbr]
      simp only [if_true]
      rw [hevn]
      exact delimFallback_join xs hx
    · simp only [hbr, Bool.false_eq_true, if_false]
      exact delimFallback_join xs hx

/-- Witness for `to_list_roundtrip`: `"a;b"` splits back into the two
elements it was joined from. -/
theorem to_list_roundtrip_witness :
    to_list (fun _ => none) (PyVal.str (joinSemicolon ["a", "b"])) =
      [PyVal.str "a", PyVal.str "b"] := by
  have h := to_list_roundtrip (fun _ => none) [] ["a", "b"] ?hx (Or.inr rfl)
  · exact h.2
  case hx =>
    intro x hmem
    rw [List.mem_cons, List.mem_singleton] at hmem
    rcases hmem with rfl | rfl
    · exact ⟨by decide, rfl, rfl, rfl⟩
    · exact ⟨by decide, rfl, rfl, rfl⟩

/-- The round-trip claim fails as stated: the whitespace-only element `" "`
is a non-empty string containing no delimiter, yet coercing its `;`-join
yields `[]`; and a bracket-delimited element such as `"[1]"` whose literal
parse succeeds is replaced by the parsed structure, not the original string.
-/
theorem to_list_roundtrip_counterexample :
    joinSemicolon [" "] = " "
  ∧ (" " : String) ≠ ""
  ∧ containsChar " " ';' = false
  ∧ containsChar " " ',' = false
  ∧ to_list (fun _ => none) (PyVal.str (joinSemicolon [" "])) = []
  ∧ ([] : List PyVal) ≠ [PyVal.str " "]
  ∧ to_list (fun s => if s = "[1]" then some (PyVal.list [PyVal.int 1]) else none)
      (PyVal.str (joinSemicolon ["[1]"])) = [PyVal.int 1]
  ∧ [PyVal.int 1] ≠ [PyVal.str "[1]"] := by
  refine ⟨by decide, by decide, rfl, rfl, rfl, by simp, rfl, by simp⟩
